import Mathlib

/-!
Verification of the data-loading and sampling subsystem of `deepks/model/reader.py`.

The Python classes `Reader`, `ForceReader`, `OrbitalReader` and `GroupReader` are
shallowly embedded as Lean structures over lists.  Numpy arrays become lists
(a rank-3 array is a list of frames, each frame a list of atom rows, each row a
list of rational channel values); fancy indexing `a[ind]` becomes `npIndex`;
boolean-mask indexing becomes `maskSel`.  The library calls whose numerics are
external to the repository are abstracted as function parameters:
`np.random.choice(n, n, replace=False)` becomes an explicit permutation argument,
`np.linalg.solve` becomes a `solve` parameter, and the floating-point square
root inside `np.std` becomes a `sqrt` parameter.  `torch.cat(_, dim=0)` is
modelled by `torchCat`, which fails (returns `none`, the model of the raised
runtime error) unless all frames share one shape.
-/

/-- A frame of the descriptor tensor: `natm` rows of `ndesc` channel values. -/
abbrev Frame := List (List ℚ)

/-- Numpy integer fancy indexing `xs[ind]` (all indices assumed in range). -/
def npIndex (ind : List Nat) (xs : List α) : List α :=
  ind.filterMap (fun i => xs[i]?)

/-- Numpy boolean-mask indexing `xs[conv]`. -/
def maskSel (conv : List Bool) (xs : List α) : List α :=
  ((conv.zip xs).filter (fun p => p.1)).map (fun p => p.2)

/-- The shape `(natm, ndesc)` of a (rectangular) frame. -/
def frShape (f : Frame) : Nat × Nat := (f.length, (f.headD []).length)

/-- `torch.cat(batches, dim=0)`: concatenate along the frame axis; a shape
mismatch among the concatenated frames is a runtime error (`none`). -/
def torchCat (batches : List (List Frame)) : Option (List Frame) :=
  let all := batches.flatten
  match all.head? with
  | none => some []
  | some f => if all.all (fun g => frShape g = frShape f) then some all else none

/- ### The plain `Reader` (label + descriptor, Policy A block-cursor sampling) -/

/-- State of the Python `Reader` class after construction: metadata, the
convergence-filtered stored arrays, and the sampling cursor `index_count_all`. -/
structure Reader (α β : Type) where
  natm : Nat
  ndesc : Nat
  nframes : Nat
  batch_size : Nat
  index_count_all : Nat
  data_ec : List α
  data_dm : List β
deriving DecidableEq, Repr

/-- `Reader.prepare`: apply the convergence mask (or an all-true mask when the
filter is disabled), count the retained frames, and clamp the batch size. -/
def Reader.prepare (natm ndesc batch_size : Nat) (c_filter : Bool)
    (raw_ec : List α) (raw_dm : List β) (conv : List Bool) : Reader α β :=
  let conv := if c_filter then conv else List.replicate raw_ec.length true
  let n := conv.count true
  { natm := natm, ndesc := ndesc,
    nframes := n,
    batch_size := if n < batch_size then n else batch_size,
    index_count_all := 0,
    data_ec := maskSel conv raw_ec,
    data_dm := maskSel conv raw_dm }

/-- `Reader.sample_all`: every retained frame in current storage order. -/
def Reader.sample_all (s : Reader α β) : List α × List β :=
  (s.data_ec, s.data_dm)

/-- `Reader.sample_train` (Policy A).  `perm` is the permutation produced by
`np.random.choice(nframes, nframes, replace=False)` on the reshuffle path.
Returns the updated reader state together with the sampled batch. -/
def Reader.sample_train (perm : List Nat) (s : Reader α β) :
    Reader α β × (List α × List β) :=
  if s.nframes = s.batch_size ∧ s.batch_size = 1 then
    (s, s.sample_all)
  else
    let cnt := s.index_count_all + s.batch_size
    let wrap := s.nframes < cnt
    let cnt' := if wrap then s.batch_size else cnt
    let ec' := if wrap then npIndex perm s.data_ec else s.data_ec
    let dm' := if wrap then npIndex perm s.data_dm else s.data_dm
    let ind := List.range' (cnt' - s.batch_size) s.batch_size
    ({ s with index_count_all := cnt', data_ec := ec', data_dm := dm' },
     (npIndex ind ec', npIndex ind dm'))

/- ### Helper lemmas about the indexing primitives -/

theorem npIndex_length (ind : List Nat) (xs : List α)
    (h : ∀ i ∈ ind, i < xs.length) : (npIndex ind xs).length = ind.length := by
  induction ind with
  | nil => rfl
  | cons i t ih =>
    have hi : i < xs.length := h i (List.mem_cons_self i t)
    simp only [npIndex, List.filterMap_cons, List.getElem?_eq_getElem hi]
    have := ih (fun j hj => h j (List.mem_cons_of_mem i hj))
    simpa [npIndex] using this

theorem mem_npIndex {ind : List Nat} {xs : List α} {x : α}
    (h : x ∈ npIndex ind xs) : x ∈ xs := by
  simp only [npIndex, List.mem_filterMap] at h
  obtain ⟨i, _, hget⟩ := h
  exact List.getElem?_mem hget

theorem npIndex_range' (xs : List α) :
    ∀ (n a : Nat), a + n ≤ xs.length →
      npIndex (List.range' a n) xs = (xs.drop a).take n := by
  intro n
  induction n with
  | zero => intro a _; simp [npIndex]
  | succ m ih =>
    intro a h
    have ha : a < xs.length := by omega
    have hrec := ih (a + 1) (by omega)
    rw [List.range'_succ]
    simp only [npIndex, List.filterMap_cons, List.getElem?_eq_getElem ha]
    rw [List.drop_eq_getElem_cons ha]
    simp only [List.take_succ_cons, List.cons.injEq]
    exact ⟨by trivial, hrec⟩

theorem perm_range_bound {perm : List Nat} {n : Nat}
    (h : perm.Perm (List.range n)) : ∀ i ∈ perm, i < n := by
  intro i hi
  have := h.mem_iff.mp hi
  simpa using this

theorem npIndex_perm_length {perm : List Nat} {n : Nat} (xs : List α)
    (h : perm.Perm (List.range n)) (hlen : xs.length = n) :
    (npIndex perm xs).length = n := by
  rw [npIndex_length perm xs (fun i hi => by
        rw [hlen]; exact perm_range_bound h i hi)]
  simpa using h.length_eq

/-- **C1** Policy A block-cursor sampling: with `batch_size ≤ nframes` and
outside the degenerate `nframes = batch_size = 1` case, `sample_train` advances
the cursor by `batch_size`; when the advanced cursor exceeds `nframes` it is
reset to `batch_size` and both stored arrays are reordered by the one fresh
permutation of all `nframes` indices; the returned batch is the contiguous
slice `[cursor - batch_size, cursor)` of the (possibly just-reordered) stored
arrays. -/
theorem policyA_block_cursor {α β : Type} (s : Reader α β) (perm : List Nat)
    (hbs : s.batch_size ≤ s.nframes)
    (hdeg : ¬ (s.nframes = s.batch_size ∧ s.batch_size = 1))
    (hec : s.data_ec.length = s.nframes)
    (hdm : s.data_dm.length = s.nframes)
    (hperm : perm.Perm (List.range s.nframes)) :
    (Reader.sample_train perm s).1.index_count_all =
      (if s.nframes < s.index_count_all + s.batch_size then s.batch_size
       else s.index_count_all + s.batch_size) ∧
    (Reader.sample_train perm s).1.data_ec =
      (if s.nframes < s.index_count_all + s.batch_size
       then npIndex perm s.data_ec else s.data_ec) ∧
    (Reader.sample_train perm s).1.data_dm =
      (if s.nframes < s.index_count_all + s.batch_size
       then npIndex perm s.data_dm else s.data_dm) ∧
    (Reader.sample_train perm s).2.1 =
      ((Reader.sample_train perm s).1.data_ec.drop
        ((Reader.sample_train perm s).1.index_count_all - s.batch_size)).take
        s.batch_size ∧
    (Reader.sample_train perm s).2.2 =
      ((Reader.sample_train perm s).1.data_dm.drop
        ((Reader.sample_train perm s).1.index_count_all - s.batch_size)).take
        s.batch_size := by
  by_cases hw : s.nframes < s.index_count_all + s.batch_size
  · have hecl : (npIndex perm s.data_ec).length = s.nframes :=
      npIndex_perm_length s.data_ec hperm hec
    have hdml : (npIndex perm s.data_dm).length = s.nframes :=
      npIndex_perm_length s.data_dm hperm hdm
    simp only [Reader.sample_train, if_neg hdeg, if_pos hw]
    refine ⟨by trivial, by trivial, by trivial, ?_, ?_⟩
    · rw [npIndex_range' (npIndex perm s.data_ec) s.batch_size
            (s.batch_size - s.batch_size) (by omega)]
    · rw [npIndex_range' (npIndex perm s.data_dm) s.batch_size
            (s.batch_size - s.batch_size) (by omega)]
  · simp only [Reader.sample_train, if_neg hdeg, if_neg hw]
    refine ⟨by trivial, by trivial, by trivial, ?_, ?_⟩
    · rw [npIndex_range' s.data_ec s.batch_size
            (s.index_count_all + s.batch_size - s.batch_size) (by omega)]
    · rw [npIndex_range' s.data_dm s.batch_size
            (s.index_count_all + s.batch_size - s.batch_size) (by omega)]

/-- Witness for C1 at a concrete reader with 3 frames, batch size 2, cursor 2
(so this call wraps), and the reversing permutation. -/
theorem policyA_block_cursor_witness :
    let s : Reader ℚ ℚ :=
      { natm := 1, ndesc := 1, nframes := 3, batch_size := 2,
        index_count_all := 2, data_ec := [10, 20, 30], data_dm := [1, 2, 3] }
    (Reader.sample_train [2, 1, 0] s).1.index_count_all = 2 ∧
    (Reader.sample_train [2, 1, 0] s).2.1 = [30, 20] := by
  intro s
  have h := policyA_block_cursor s [2, 1, 0] (by decide) (by decide)
    (by decide) (by decide) (by decide)
  obtain ⟨h1, h2, _, h4, _⟩ := h
  refine ⟨by rw [h1]; decide, ?_⟩
  rw [h4, h1, h2]
  decide

/- ### `ForceReader` and `OrbitalReader` (Policy B queue sampling) -/

/-- State of the Python `ForceReader` class: metadata, the four filtered
tensors, and the index queue `idx_queue`. -/
structure ForceReader (α β γ δ : Type) where
  natm : Nat
  ndesc : Nat
  nframes : Nat
  batch_size : Nat
  idx_queue : List Nat
  t_ec : List α
  t_eig : List β
  t_fc : List γ
  t_gvx : List δ
deriving DecidableEq, Repr

/-- `ForceReader.prepare`: convergence filtering and batch-size clamping for
the four loaded tensors; the queue starts empty. -/
def ForceReader.prepare (natm ndesc batch_size : Nat) (c_filter : Bool)
    (raw_ec : List α) (raw_dm : List β) (raw_fc : List γ) (raw_gvx : List δ)
    (conv : List Bool) : ForceReader α β γ δ :=
  let conv := if c_filter then conv else List.replicate raw_ec.length true
  let n := conv.count true
  { natm := natm, ndesc := ndesc, nframes := n,
    batch_size := if n < batch_size then n else batch_size,
    idx_queue := [],
    t_ec := maskSel conv raw_ec, t_eig := maskSel conv raw_dm,
    t_fc := maskSel conv raw_fc, t_gvx := maskSel conv raw_gvx }

/-- `ForceReader.sample_all`: all four tensors, whole and unreordered. -/
def ForceReader.sample_all (s : ForceReader α β γ δ) :
    List α × List β × List γ × List δ :=
  (s.t_ec, s.t_eig, s.t_fc, s.t_gvx)

/-- `ForceReader.sample_train` (Policy B).  `perm` is the permutation the
queue is refilled with when fewer than `batch_size` indices remain. -/
def ForceReader.sample_train (perm : List Nat) (s : ForceReader α β γ δ) :
    ForceReader α β γ δ × (List α × List β × List γ × List δ) :=
  if s.batch_size = s.nframes ∧ s.nframes = 1 then
    (s, s.sample_all)
  else
    let q := if s.idx_queue.length < s.batch_size then perm else s.idx_queue
    let sample_idx := q.take s.batch_size
    ({ s with idx_queue := q.drop s.batch_size },
     (npIndex sample_idx s.t_ec, npIndex sample_idx s.t_eig,
      npIndex sample_idx s.t_fc, npIndex sample_idx s.t_gvx))

/-- State of the Python `OrbitalReader` class: the six filtered tensors and
the index queue. -/
structure OrbitalReader (α β γ δ ε ζ : Type) where
  natm : Nat
  ndesc : Nat
  nframes : Nat
  batch_size : Nat
  idx_queue : List Nat
  t_ec : List α
  t_eig : List β
  t_fc : List γ
  t_gvx : List δ
  t_oc : List ε
  t_op : List ζ
deriving DecidableEq, Repr

/-- `OrbitalReader.prepare`: convergence filtering and batch-size clamping for
the six loaded tensors; the queue starts empty. -/
def OrbitalReader.prepare (natm ndesc batch_size : Nat) (c_filter : Bool)
    (raw_ec : List α) (raw_dm : List β) (raw_fc : List γ) (raw_gvx : List δ)
    (raw_oc : List ε) (raw_op : List ζ) (conv : List Bool) :
    OrbitalReader α β γ δ ε ζ :=
  let conv := if c_filter then conv else List.replicate raw_ec.length true
  let n := conv.count true
  { natm := natm, ndesc := ndesc, nframes := n,
    batch_size := if n < batch_size then n else batch_size,
    idx_queue := [],
    t_ec := maskSel conv raw_ec, t_eig := maskSel conv raw_dm,
    t_fc := maskSel conv raw_fc, t_gvx := maskSel conv raw_gvx,
    t_oc := maskSel conv raw_oc, t_op := maskSel conv raw_op }

/-- `OrbitalReader.sample_all`: all six tensors, whole and unreordered. -/
def OrbitalReader.sample_all (s : OrbitalReader α β γ δ ε ζ) :
    List α × List β × List γ × List δ × List ε × List ζ :=
  (s.t_ec, s.t_eig, s.t_fc, s.t_gvx, s.t_oc, s.t_op)

/-- `OrbitalReader.sample_train` (Policy B, six tensors). -/
def OrbitalReader.sample_train (perm : List Nat) (s : OrbitalReader α β γ δ ε ζ) :
    OrbitalReader α β γ δ ε ζ ×
      (List α × List β × List γ × List δ × List ε × List ζ) :=
  if s.batch_size = s.nframes ∧ s.nframes = 1 then
    (s, s.sample_all)
  else
    let q := if s.idx_queue.length < s.batch_size then perm else s.idx_queue
    let sample_idx := q.take s.batch_size
    ({ s with idx_queue := q.drop s.batch_size },
     (npIndex sample_idx s.t_ec, npIndex sample_idx s.t_eig,
      npIndex sample_idx s.t_fc, npIndex sample_idx s.t_gvx,
      npIndex sample_idx s.t_oc, npIndex sample_idx s.t_op))

theorem npIndex_take_length {q : List Nat} {b : Nat} (xs : List α)
    (hb : b ≤ q.length) (hq : ∀ i ∈ q, i < xs.length) :
    (npIndex (q.take b) xs).length = b := by
  rw [npIndex_length (q.take b) xs
        (fun i hi => hq i (List.take_subset b q hi))]
  simpa using hb

/-- **C2** Policy B queue sampling: outside the degenerate case, both
`ForceReader.sample_train` and `OrbitalReader.sample_train` refill the queue
with the whole fresh permutation exactly when fewer than `batch_size` indices
remain (the leftover tail is discarded, never appearing as a short batch),
return exactly the first `batch_size` queue entries applied to the stored
tensors, remove them from the front of the queue, and never reorder the
stored tensors themselves. -/
theorem policyB_queue_sampling {α β γ δ ε ζ : Type}
    (sF : ForceReader α β γ δ) (sO : OrbitalReader α β γ δ ε ζ)
    (permF permO : List Nat)
    (hFdeg : ¬ (sF.batch_size = sF.nframes ∧ sF.nframes = 1))
    (hFbs : sF.batch_size ≤ sF.nframes)
    (hFq : ∀ i ∈ sF.idx_queue, i < sF.nframes)
    (hFperm : permF.Perm (List.range sF.nframes))
    (hFec : sF.t_ec.length = sF.nframes)
    (hOdeg : ¬ (sO.batch_size = sO.nframes ∧ sO.nframes = 1))
    (hObs : sO.batch_size ≤ sO.nframes)
    (hOq : ∀ i ∈ sO.idx_queue, i < sO.nframes)
    (hOperm : permO.Perm (List.range sO.nframes))
    (hOec : sO.t_ec.length = sO.nframes) :
    (let qF := if sF.idx_queue.length < sF.batch_size then permF else sF.idx_queue
     (ForceReader.sample_train permF sF).1.idx_queue = qF.drop sF.batch_size ∧
     (ForceReader.sample_train permF sF).2 =
       (npIndex (qF.take sF.batch_size) sF.t_ec,
        npIndex (qF.take sF.batch_size) sF.t_eig,
        npIndex (qF.take sF.batch_size) sF.t_fc,
        npIndex (qF.take sF.batch_size) sF.t_gvx) ∧
     (ForceReader.sample_train permF sF).2.1.length = sF.batch_size ∧
     (ForceReader.sample_train permF sF).1.t_ec = sF.t_ec ∧
     (ForceReader.sample_train permF sF).1.t_eig = sF.t_eig ∧
     (ForceReader.sample_train permF sF).1.t_fc = sF.t_fc ∧
     (ForceReader.sample_train permF sF).1.t_gvx = sF.t_gvx) ∧
    (let qO := if sO.idx_queue.length < sO.batch_size then permO else sO.idx_queue
     (OrbitalReader.sample_train permO sO).1.idx_queue = qO.drop sO.batch_size ∧
     (OrbitalReader.sample_train permO sO).2 =
       (npIndex (qO.take sO.batch_size) sO.t_ec,
        npIndex (qO.take sO.batch_size) sO.t_eig,
        npIndex (qO.take sO.batch_size) sO.t_fc,
        npIndex (qO.take sO.batch_size) sO.t_gvx,
        npIndex (qO.take sO.batch_size) sO.t_oc,
        npIndex (qO.take sO.batch_size) sO.t_op) ∧
     (OrbitalReader.sample_train permO sO).2.1.length = sO.batch_size ∧
     (OrbitalReader.sample_train permO sO).1.t_ec = sO.t_ec ∧
     (OrbitalReader.sample_train permO sO).1.t_eig = sO.t_eig ∧
     (OrbitalReader.sample_train permO sO).1.t_fc = sO.t_fc ∧
     (OrbitalReader.sample_train permO sO).1.t_gvx = sO.t_gvx ∧
     (OrbitalReader.sample_train permO sO).1.t_oc = sO.t_oc ∧
     (OrbitalReader.sample_train permO sO).1.t_op = sO.t_op) := by
  constructor
  · intro qF
    have hqlen : sF.batch_size ≤ qF.length := by
      by_cases hs : sF.idx_queue.length < sF.batch_size
      · have : permF.length = sF.nframes := by simpa using hFperm.length_eq
        simp only [qF, if_pos hs, this]; exact hFbs
      · simp only [qF, if_neg hs]; omega
    have hqmem : ∀ i ∈ qF, i < sF.nframes := by
      by_cases hs : sF.idx_queue.length < sF.batch_size
      · simp only [qF, if_pos hs]; exact perm_range_bound hFperm
      · simp only [qF, if_neg hs]; exact hFq
    simp only [ForceReader.sample_train, if_neg hFdeg]
    refine ⟨by trivial, by trivial, ?_, by trivial, by trivial, by trivial, by trivial⟩
    exact npIndex_take_length sF.t_ec hqlen
      (fun i hi => hFec ▸ hqmem i hi)
  · intro qO
    have hqlen : sO.batch_size ≤ qO.length := by
      by_cases hs : sO.idx_queue.length < sO.batch_size
      · have : permO.length = sO.nframes := by simpa using hOperm.length_eq
        simp only [qO, if_pos hs, this]; exact hObs
      · simp only [qO, if_neg hs]; omega
    have hqmem : ∀ i ∈ qO, i < sO.nframes := by
      by_cases hs : sO.idx_queue.length < sO.batch_size
      · simp only [qO, if_pos hs]; exact perm_range_bound hOperm
      · simp only [qO, if_neg hs]; exact hOq
    simp only [OrbitalReader.sample_train, if_neg hOdeg]
    refine ⟨by trivial, by trivial, ?_, by trivial, by trivial, by trivial, by trivial, by trivial, by trivial⟩
    exact npIndex_take_length sO.t_ec hqlen
      (fun i hi => hOec ▸ hqmem i hi)

/-- Witness for C2 on concrete force/orbital readers (`nframes = 3`,
`batch_size = 2`) whose queues are shorter than a batch, so this call refills
from the supplied permutation and discards the leftover index. -/
theorem policyB_queue_sampling_witness :
    let sF : ForceReader ℚ ℚ ℚ ℚ :=
      { natm := 1, ndesc := 1, nframes := 3, batch_size := 2,
        idx_queue := [1], t_ec := [10, 20, 30], t_eig := [4, 5, 6],
        t_fc := [7, 8, 9], t_gvx := [11, 12, 13] }
    let sO : OrbitalReader ℚ ℚ ℚ ℚ ℚ ℚ :=
      { natm := 1, ndesc := 1, nframes := 3, batch_size := 2,
        idx_queue := [0], t_ec := [10, 20, 30], t_eig := [4, 5, 6],
        t_fc := [7, 8, 9], t_gvx := [11, 12, 13], t_oc := [14, 15, 16],
        t_op := [17, 18, 19] }
    (ForceReader.sample_train [2, 0, 1] sF).1.idx_queue = [1] ∧
    (ForceReader.sample_train [2, 0, 1] sF).2.1 = [30, 10] ∧
    (OrbitalReader.sample_train [1, 2, 0] sO).2.1.length = 2 := by
  intro sF sO
  have h := policyB_queue_sampling sF sO [2, 0, 1] [1, 2, 0]
    (by decide) (by decide) (by decide) (by decide) (by decide)
    (by decide) (by decide) (by decide) (by decide) (by decide)
  obtain ⟨⟨hq, hb, _, _⟩, ⟨_, _, hlen, _⟩⟩ := h
  exact ⟨by rw [hq]; decide, by rw [hb]; decide, hlen⟩

/-- **C8** Batch-size clamping: for every dataset variant, when the number of
frames retained by the convergence mask is smaller than the requested batch
size, construction resets the batch size to `nframes`; consequently no
constructed dataset reports a batch size larger than its frame count. -/
theorem batch_size_clamping {α β γ δ ε ζ : Type}
    (natm ndesc batch_size : Nat) (c_filter : Bool)
    (raw_ec : List α) (raw_dm : List β) (raw_fc : List γ) (raw_gvx : List δ)
    (raw_oc : List ε) (raw_op : List ζ) (conv : List Bool) :
    (let r := Reader.prepare natm ndesc batch_size c_filter raw_ec raw_dm conv
     (r.nframes < batch_size → r.batch_size = r.nframes) ∧
     r.batch_size ≤ r.nframes ∧
     (¬ r.nframes < batch_size → r.batch_size = batch_size)) ∧
    (let f := ForceReader.prepare natm ndesc batch_size c_filter
        raw_ec raw_dm raw_fc raw_gvx conv
     (f.nframes < batch_size → f.batch_size = f.nframes) ∧
     f.batch_size ≤ f.nframes ∧
     (¬ f.nframes < batch_size → f.batch_size = batch_size)) ∧
    (let o := OrbitalReader.prepare natm ndesc batch_size c_filter
        raw_ec raw_dm raw_fc raw_gvx raw_oc raw_op conv
     (o.nframes < batch_size → o.batch_size = o.nframes) ∧
     o.batch_size ≤ o.nframes ∧
     (¬ o.nframes < batch_size → o.batch_size = batch_size)) := by
  refine ⟨?_, ?_, ?_⟩
  · simp only [Reader.prepare]
    by_cases h : (if c_filter then conv
        else List.replicate raw_ec.length true).count true < batch_size
    · exact ⟨fun _ => by simp [h], by simp [h], fun hc => absurd h hc⟩
    · exact ⟨fun hc => absurd hc h, by simp [h]; omega, fun _ => by simp [h]⟩
  · simp only [ForceReader.prepare]
    by_cases h : (if c_filter then conv
        else List.replicate raw_ec.length true).count true < batch_size
    · exact ⟨fun _ => by simp [h], by simp [h], fun hc => absurd h hc⟩
    · exact ⟨fun hc => absurd hc h, by simp [h]; omega, fun _ => by simp [h]⟩
  · simp only [OrbitalReader.prepare]
    by_cases h : (if c_filter then conv
        else List.replicate raw_ec.length true).count true < batch_size
    · exact ⟨fun _ => by simp [h], by simp [h], fun hc => absurd h hc⟩
    · exact ⟨fun hc => absurd hc h, by simp [h]; omega, fun _ => by simp [h]⟩

/-- Witness for C8: `raw_frames = 3`, requested `batch_size = 10`, all-true
convergence mask, yielding `nframes = 3` and clamped `batch_size = 3`. -/
theorem batch_size_clamping_witness :
    let r := Reader.prepare 1 1 10 true
      ([1, 2, 3] : List ℚ) ([4, 5, 6] : List ℚ) [true, true, true]
    r.nframes = 3 ∧ r.batch_size = 3 := by
  intro r
  have h := (batch_size_clamping 1 1 10 true
    ([1, 2, 3] : List ℚ) ([4, 5, 6] : List ℚ) ([] : List ℚ) ([] : List ℚ)
    ([] : List ℚ) ([] : List ℚ) [true, true, true]).1
  refine ⟨by decide, ?_⟩
  have h3 : r.nframes = 3 := by decide
  have := h.1 (by rw [h3]; omega)
  rw [this, h3]

/- ### `GroupReader` -/

/-- The raw on-disk arrays of one system, before filtering. -/
structure RawSys where
  natm : Nat
  ndesc : Nat
  raw_ec : List ℚ
  raw_dm : List Frame
  conv : List Bool
deriving DecidableEq, Repr

/-- State of the Python `GroupReader` class: the included per-system readers,
their frame counts, the selection probabilities, and the epoch counter. -/
structure GroupReaderModel where
  readers : List (Reader ℚ Frame)
  nframes : List Nat
  nsystems : Nat
  ndesc : Nat
  sys_prob : List ℚ
  batch_size : Nat
  group_batch : Nat
  sample_used : Nat
deriving DecidableEq, Repr

/-- `GroupReader.__init__` over the plain-`Reader` variant: build one reader
per path, drop systems whose retained frame count is zero, then read
`readers[0].ndesc` — an index-out-of-range error (modelled `none`) when every
system was dropped. -/
def groupReaderInit (batch_size group_batch : Nat) (c_filter : Bool)
    (systems : List RawSys) : Option GroupReaderModel :=
  let built := systems.map (fun p =>
    Reader.prepare p.natm p.ndesc batch_size c_filter p.raw_ec p.raw_dm p.conv)
  let included := built.filter (fun r => r.nframes ≠ 0)
  match included.head? with
  | none => none
  | some r0 =>
    let nfr := included.map (fun r => r.nframes)
    some { readers := included,
           nframes := nfr,
           nsystems := included.length,
           ndesc := r0.ndesc,
           sys_prob := nfr.map (fun n => (n : ℚ) / (nfr.sum : ℚ)),
           batch_size := batch_size,
           group_batch := max group_batch 1,
           sample_used := 0 }

/-- `GroupReader.get_train_size`: the sum of the included frame counts. -/
def GroupReaderModel.get_train_size (g : GroupReaderModel) : Nat :=
  g.nframes.sum

/-- `group_dict[n]`: the included readers whose atom count is `n` (built by
insertion in `__init__`; insertion preserves the reader order). -/
def groupDict (readers : List (Reader ℚ Frame)) (n : Nat) :
    List (Reader ℚ Frame) :=
  readers.filter (fun r => r.natm = n)

/-- `group_prob[n]`: the group's total frame count over the global total. -/
def groupProb (g : GroupReaderModel) (n : Nat) : ℚ :=
  (((groupDict g.readers n).map (fun r => r.nframes)).sum : ℚ) /
    (g.nframes.sum : ℚ)

/-- `batch_prob_raw[n]`: per group member, `nframes / batch_size`. -/
def batchProbRaw (g : GroupReaderModel) (n : Nat) : List ℚ :=
  (groupDict g.readers n).map (fun r => (r.nframes : ℚ) / (r.batch_size : ℚ))

/-- `batch_prob[n]`: `batch_prob_raw[n]` normalized to sum to one. -/
def batchProb (g : GroupReaderModel) (n : Nat) : List ℚ :=
  (batchProbRaw g n).map (fun p => p / (batchProbRaw g n).sum)

/-- `GroupReader.sample_train_group`, after the random draws: sample each of
the drawn systems once (`perms` supplies each per-system reshuffle
permutation) and concatenate the per-field batches along the frame axis. -/
def sample_train_group (csys : List (Reader ℚ Frame))
    (perms : List (List Nat)) : Option (List ℚ × List Frame) :=
  let samples := (csys.zip perms).map (fun rp => (Reader.sample_train rp.2 rp.1).2)
  match torchCat (samples.map (fun b => b.2)) with
  | none => none
  | some dm => some ((samples.map (fun b => b.1)).flatten, dm)

/-- Single-system draw of `GroupReader.sample_train`: delegate to the chosen
reader's own `sample_train`, keeping the updated reader in place. -/
def GroupReaderModel.singleSample (idx : Nat) (perm : List Nat)
    (g : GroupReaderModel) :
    Option ((List ℚ × List Frame) × GroupReaderModel) :=
  match g.readers[idx]? with
  | none => none
  | some r =>
    let out := Reader.sample_train perm r
    some (out.2, { g with readers := g.readers.set idx out.1 })

/-- Group draw of `GroupReader.sample_train_group`: look the drawn system
indices up in `group_dict[cnatm]` and concatenate their samples. -/
def GroupReaderModel.groupSample (cnatm : Nat) (sysChoices : List Nat)
    (perms : List (List Nat)) (g : GroupReaderModel) :
    Option (List ℚ × List Frame) :=
  let cgrp := groupDict g.readers cnatm
  sample_train_group (sysChoices.filterMap (fun i => cgrp[i]?)) perms

/-- The random choices one `__next__` step consumes. -/
structure Draw where
  sysIdx : Nat
  permA : List Nat
  cnatm : Nat
  csys : List Nat
  perms : List (List Nat)
deriving DecidableEq, Repr

/-- Result of one `__next__` step: end of epoch (`StopIteration`), a
propagated runtime error, or a produced batch. -/
inductive StepResult where
  | stop
  | err
  | batch (b : List ℚ × List Frame)
deriving DecidableEq, Repr

/-- The frame count of a produced batch, `sample[0].shape[0]`. -/
def sampleCount (b : List ℚ × List Frame) : Nat := b.1.length

/-- `GroupReader.__next__`: when the running total of previously sampled
frames strictly exceeds the total train size, reset it and stop; otherwise
produce one batch (single-system when `group_batch = 1`, group batch
otherwise) and add its frame count to the running total. -/
def GroupReaderModel.next (d : Draw) (g : GroupReaderModel) :
    StepResult × GroupReaderModel :=
  if g.get_train_size < g.sample_used then
    (.stop, { g with sample_used := 0 })
  else
    match (if g.group_batch = 1 then
             g.singleSample d.sysIdx d.permA
           else
             (g.groupSample d.cnatm d.csys d.perms).map (fun b => (b, g))) with
    | none => (.err, g)
    | some (b, g') =>
      (.batch b, { g' with sample_used := g'.sample_used + sampleCount b })

theorem filter_ne_zero_sum {α : Type} (f : α → Nat) (l : List α) :
    ((l.filter (fun x => f x ≠ 0)).map f).sum = (l.map f).sum := by
  induction l with
  | nil => rfl
  | cons x t ih =>
    by_cases hx : f x = 0
    · simp [List.filter_cons, hx]
      simp only [ne_eq] at ih
      simpa using ih
    · simp [List.filter_cons, hx]
      simp only [ne_eq] at ih
      simp at ih ⊢
      omega

/-- **C9** Empty systems are dropped, not errors: a successfully constructed
`GroupReader` contains exactly the systems whose retained frame count is
nonzero, and its total train size is the sum of the included systems' frame
counts — which equals the sum over all configured systems, the dropped ones
contributing zero. -/
theorem drop_empty_systems (batch_size group_batch : Nat) (c_filter : Bool)
    (systems : List RawSys) (g : GroupReaderModel)
    (h : groupReaderInit batch_size group_batch c_filter systems = some g) :
    g.readers = (systems.map (fun p =>
        Reader.prepare p.natm p.ndesc batch_size c_filter
          p.raw_ec p.raw_dm p.conv)).filter (fun r => r.nframes ≠ 0) ∧
    g.nsystems = ((systems.map (fun p =>
        Reader.prepare p.natm p.ndesc batch_size c_filter
          p.raw_ec p.raw_dm p.conv)).filter (fun r => r.nframes ≠ 0)).length ∧
    g.get_train_size = ((systems.map (fun p =>
        Reader.prepare p.natm p.ndesc batch_size c_filter
          p.raw_ec p.raw_dm p.conv)).map (fun r => r.nframes)).sum := by
  simp only [groupReaderInit] at h
  set built := systems.map (fun p =>
    Reader.prepare p.natm p.ndesc batch_size c_filter p.raw_ec p.raw_dm p.conv)
    with hbuilt
  split at h
  · exact absurd h (by simp)
  · cases Option.some.inj h
    refine ⟨rfl, rfl, ?_⟩
    show ((built.filter (fun r => r.nframes ≠ 0)).map (fun r => r.nframes)).sum
        = (built.map (fun r => r.nframes)).sum
    exact filter_ne_zero_sum (fun r => r.nframes) built

/-- Witness for C9: two systems, one with an all-false convergence mask
(0 retained frames) and one with 5 retained frames; the reader contains
exactly 1 system and reports total frame count 5. -/
theorem drop_empty_systems_witness :
    (groupReaderInit 1 1 true
      [{ natm := 1, ndesc := 1, raw_ec := [1, 2, 3],
         raw_dm := [[[1]], [[2]], [[3]]], conv := [false, false, false] },
       { natm := 1, ndesc := 1, raw_ec := [4, 5, 6, 7, 8],
         raw_dm := [[[4]], [[5]], [[6]], [[7]], [[8]]],
         conv := [true, true, true, true, true] }]).elim (0, 0)
      (fun g => (g.nsystems, g.get_train_size)) = (1, 5) := by
  rcases hg : groupReaderInit 1 1 true
      [{ natm := 1, ndesc := 1, raw_ec := [1, 2, 3],
         raw_dm := [[[1]], [[2]], [[3]]], conv := [false, false, false] },
       { natm := 1, ndesc := 1, raw_ec := [4, 5, 6, 7, 8],
         raw_dm := [[[4]], [[5]], [[6]], [[7]], [[8]]],
         conv := [true, true, true, true, true] }] with _ | g
  · exact absurd hg (by decide)
  · have h := drop_empty_systems 1 1 true _ g hg
    simp only [Option.elim, Prod.mk.injEq]
    exact ⟨by rw [h.2.1]; decide, by rw [h.2.2]; decide⟩

/-- **C10** (implicit) If every configured system has zero retained frames —
in particular if the system list is empty — `GroupReader` construction does
not complete the drop-and-continue behaviour: it fails at the read of
`readers[0].ndesc` (index out of range, modelled as `none`), before any
sampling is possible.  Conversely construction only fails this way in that
situation. -/
theorem all_empty_init_fails (batch_size group_batch : Nat) (c_filter : Bool)
    (systems : List RawSys) :
    groupReaderInit batch_size group_batch c_filter systems = none ↔
      ∀ p ∈ systems,
        (Reader.prepare p.natm p.ndesc batch_size c_filter
          p.raw_ec p.raw_dm p.conv).nframes = 0 := by
  simp only [groupReaderInit]
  set built := systems.map (fun p =>
    Reader.prepare p.natm p.ndesc batch_size c_filter p.raw_ec p.raw_dm p.conv)
    with hbuilt
  rcases hh : (built.filter (fun r => r.nframes ≠ 0)).head? with _ | r0
  · simp only [hh]
    constructor
    · intro _ p hp
      have hfil : built.filter (fun r => r.nframes ≠ 0) = [] :=
        List.head?_eq_none_iff.mp hh
      by_contra hne
      have hmem : (Reader.prepare p.natm p.ndesc batch_size c_filter
          p.raw_ec p.raw_dm p.conv) ∈ built.filter (fun r => r.nframes ≠ 0) := by
        rw [List.mem_filter]
        exact ⟨List.mem_map_of_mem _ hp, by simpa using hne⟩
      rw [hfil] at hmem
      exact absurd hmem (List.not_mem_nil _)
    · intro _
      trivial
  · simp only [hh]
    constructor
    · intro habs
      exact absurd habs (by simp)
    · intro hall
      exfalso
      have hr0 : r0 ∈ built.filter (fun r => r.nframes ≠ 0) :=
        List.mem_of_mem_head? hh
      rw [List.mem_filter] at hr0
      obtain ⟨hmem, hne⟩ := hr0
      rw [hbuilt, List.mem_map] at hmem
      obtain ⟨p, hp, hep⟩ := hmem
      have := hall p hp
      rw [hep] at this
      simp [this] at hne

/-- Witness for C10: a one-system list whose convergence mask is all-false
makes construction fail, via the theorem's right-to-left direction. -/
theorem all_empty_init_fails_witness :
    groupReaderInit 4 1 true
      [{ natm := 1, ndesc := 1, raw_ec := [1, 2],
         raw_dm := [[[1]], [[2]]], conv := [false, false] }] = none := by
  exact (all_empty_init_fails 4 1 true _).mpr (by decide)

/-- **C7** Epoch iteration protocol: each `__next__` call either — when the
running total of previously sampled frames strictly exceeds the total frame
count — resets the running total to zero and signals end-of-epoch, or
otherwise produces one batch (single-system when `group_batch = 1`, group
batch otherwise) and adds that batch's frame count to the running total. -/
theorem epoch_iteration_protocol (d : Draw) (g : GroupReaderModel) :
    (g.get_train_size < g.sample_used →
      g.next d = (.stop, { g with sample_used := 0 })) ∧
    (∀ b g', ¬ g.get_train_size < g.sample_used →
      (if g.group_batch = 1 then g.singleSample d.sysIdx d.permA
       else (g.groupSample d.cnatm d.csys d.perms).map (fun b => (b, g))) =
        some (b, g') →
      g.next d =
        (.batch b, { g' with sample_used := g.sample_used + sampleCount b }) ∧
      g'.sample_used = g.sample_used) := by
  constructor
  · intro hlt
    simp only [GroupReaderModel.next, if_pos hlt]
  · intro b g' hnlt heq
    have hfield : g'.sample_used = g.sample_used := by
      by_cases hgb : g.group_batch = 1
      · rw [if_pos hgb] at heq
        unfold GroupReaderModel.singleSample at heq
        rcases hr : g.readers[d.sysIdx]? with _ | r
        · rw [hr] at heq; exact absurd heq (by simp)
        · rw [hr] at heq
          simp only [Option.some.injEq, Prod.mk.injEq] at heq
          obtain ⟨h1, h2⟩ := heq
          rw [← h2]
      · rw [if_neg hgb] at heq
        rcases ho : g.groupSample d.cnatm d.csys d.perms with _ | x
        · rw [ho] at heq; exact absurd heq (by simp)
        · rw [ho] at heq
          simp only [Option.map_some', Option.some.injEq, Prod.mk.injEq] at heq
          obtain ⟨h1, h2⟩ := heq
          rw [← h2]
    refine ⟨?_, hfield⟩
    simp only [GroupReaderModel.next, if_neg hnlt, heq]
    rw [hfield]

/-- Witness for C7: a one-system reader with total frame count 2; with the
running total at 5 the step stops and resets, with it at 0 the step produces
a one-frame batch and advances the running total to 1. -/
theorem epoch_iteration_protocol_witness :
    let r : Reader ℚ Frame :=
      { natm := 1, ndesc := 1, nframes := 2, batch_size := 1,
        index_count_all := 0, data_ec := [10, 20], data_dm := [[[1]], [[2]]] }
    let g : GroupReaderModel :=
      { readers := [r], nframes := [2], nsystems := 1, ndesc := 1,
        sys_prob := [1], batch_size := 1, group_batch := 1, sample_used := 0 }
    let gs : GroupReaderModel := { g with sample_used := 5 }
    let d : Draw :=
      { sysIdx := 0, permA := [0, 1], cnatm := 1, csys := [], perms := [] }
    gs.next d = (.stop, { gs with sample_used := 0 }) ∧
    (g.next d).2.sample_used = 1 := by
  intro r g gs d
  have hstop := (epoch_iteration_protocol d gs).1 (by decide)
  have hbatch := (epoch_iteration_protocol d g).2 ([10], [[[1]]])
      { g with readers := [{ r with index_count_all := 1 }] }
      (by decide) (by decide)
  exact ⟨hstop, by rw [hbatch.1]; decide⟩

theorem sample_train_batch_spec {α β : Type} (s : Reader α β) (perm : List Nat)
    (hbs : s.batch_size ≤ s.nframes)
    (hec : s.data_ec.length = s.nframes)
    (hdm : s.data_dm.length = s.nframes)
    (hperm : perm.Perm (List.range s.nframes)) :
    (Reader.sample_train perm s).2.1.length = s.batch_size ∧
    (Reader.sample_train perm s).2.2.length = s.batch_size ∧
    ∀ f ∈ (Reader.sample_train perm s).2.2, f ∈ s.data_dm := by
  by_cases hdeg : s.nframes = s.batch_size ∧ s.batch_size = 1
  · simp only [Reader.sample_train, if_pos hdeg, Reader.sample_all]
    exact ⟨by omega, by omega, fun f hf => hf⟩
  · simp only [Reader.sample_train, if_neg hdeg]
    by_cases hw : s.nframes < s.index_count_all + s.batch_size
    · simp only [if_pos hw]
      have hecl : (npIndex perm s.data_ec).length = s.nframes :=
        npIndex_perm_length s.data_ec hperm hec
      have hdml : (npIndex perm s.data_dm).length = s.nframes :=
        npIndex_perm_length s.data_dm hperm hdm
      have hind : ∀ i ∈ List.range' (s.batch_size - s.batch_size) s.batch_size,
          i < s.nframes := by
        intro i hi
        rw [List.mem_range'_1] at hi
        omega
      refine ⟨?_, ?_, ?_⟩
      · rw [npIndex_length _ _ (fun i hi => hecl ▸ hind i hi)]
        simp [List.length_range']
      · rw [npIndex_length _ _ (fun i hi => hdml ▸ hind i hi)]
        simp [List.length_range']
      · intro f hf
        exact mem_npIndex (mem_npIndex hf)
    · simp only [if_neg hw]
      have hind : ∀ i ∈ List.range'
          (s.index_count_all + s.batch_size - s.batch_size) s.batch_size,
          i < s.nframes := by
        intro i hi
        rw [List.mem_range'_1] at hi
        omega
      refine ⟨?_, ?_, ?_⟩
      · rw [npIndex_length _ _ (fun i hi => hec ▸ hind i hi)]
        simp [List.length_range']
      · rw [npIndex_length _ _ (fun i hi => hdm ▸ hind i hi)]
        simp [List.length_range']
      · intro f hf
        exact mem_npIndex hf

theorem sum_of_all_eq {l : List Nat} {c : Nat} (h : ∀ x ∈ l, x = c) :
    l.sum = l.length * c := by
  induction l with
  | nil => simp
  | cons x t ih =>
    rw [List.sum_cons, List.length_cons, h x (List.mem_cons_self x t),
      ih (fun y hy => h y (List.mem_cons_of_mem x hy))]
    ring

/-- **C5** Group-batch draw: the atom-count group is selected with probability
equal to the group's share of the total frame count and systems are drawn
within the group with weights `nframes / batch_size` normalized in the group
(the stored probability tables realize exactly those formulas); sampling each
drawn system independently and concatenating the per-field tensors along the
frame axis yields one combined batch with frame dimension
`batch_size * group_batch` whose per-frame tensor shapes are unchanged. -/
theorem group_batch_draw (g : GroupReaderModel) (n natm ndesc bs gb : Nat)
    (csys : List (Reader ℚ Frame)) (perms : List (List Nat))
    (hlen : csys.length = gb) (hplen : perms.length = gb)
    (hsys : ∀ rp ∈ csys.zip perms,
      rp.1.batch_size = bs ∧ bs ≤ rp.1.nframes ∧
      rp.1.data_ec.length = rp.1.nframes ∧
      rp.1.data_dm.length = rp.1.nframes ∧
      rp.2.Perm (List.range rp.1.nframes) ∧
      ∀ f ∈ rp.1.data_dm, frShape f = (natm, ndesc)) :
    groupProb g n =
      ((((groupDict g.readers n).map (fun r => r.nframes)).sum : ℚ) /
        (g.nframes.sum : ℚ)) ∧
    batchProb g n =
      ((groupDict g.readers n).map
        (fun r => (r.nframes : ℚ) / (r.batch_size : ℚ))).map
        (fun p => p / ((groupDict g.readers n).map
          (fun r => (r.nframes : ℚ) / (r.batch_size : ℚ))).sum) ∧
    ∃ ec dm, sample_train_group csys perms = some (ec, dm) ∧
      ec.length = bs * gb ∧ dm.length = bs * gb ∧
      ∀ f ∈ dm, frShape f = (natm, ndesc) := by
  refine ⟨rfl, rfl, ?_⟩
  set samples :=
    (csys.zip perms).map (fun rp => (Reader.sample_train rp.2 rp.1).2)
    with hsamp
  have hsamplen : samples.length = gb := by
    rw [hsamp, List.length_map, List.length_zip, hlen, hplen]
    omega
  have hbatch : ∀ b ∈ samples, b.1.length = bs ∧ b.2.length = bs ∧
      ∀ f ∈ b.2, frShape f = (natm, ndesc) := by
    intro b hb
    rw [hsamp, List.mem_map] at hb
    obtain ⟨rp, hrp, hbe⟩ := hb
    obtain ⟨h1, h2, h3, h4, h5, h6⟩ := hsys rp hrp
    have hs := sample_train_batch_spec rp.1 rp.2 (by rw [h1]; exact h2) h3 h4 h5
    refine ⟨?_, ?_, ?_⟩
    · rw [← hbe, hs.1, h1]
    · rw [← hbe, hs.2.1, h1]
    · intro f hf
      rw [← hbe] at hf
      exact h6 f (hs.2.2 f hf)
  have hallsh : ∀ f ∈ (samples.map (fun b => b.2)).flatten,
      frShape f = (natm, ndesc) := by
    intro f hf
    rw [List.mem_flatten] at hf
    obtain ⟨l, hl, hfl⟩ := hf
    rw [List.mem_map] at hl
    obtain ⟨b, hb, rfl⟩ := hl
    exact (hbatch b hb).2.2 f hfl
  have hdmlen : (samples.map (fun b => b.2)).flatten.length = bs * gb := by
    rw [List.length_flatten, List.map_map]
    rw [sum_of_all_eq (l := samples.map (List.length ∘ fun b => b.2)) (c := bs)
      (by
        intro x hx
        rw [List.mem_map] at hx
        obtain ⟨b, hb, rfl⟩ := hx
        exact (hbatch b hb).2.1)]
    rw [List.length_map, hsamplen]
    ring
  have heclen : (samples.map (fun b => b.1)).flatten.length = bs * gb := by
    rw [List.length_flatten, List.map_map]
    rw [sum_of_all_eq (l := samples.map (List.length ∘ fun b => b.1)) (c := bs)
      (by
        intro x hx
        rw [List.mem_map] at hx
        obtain ⟨b, hb, rfl⟩ := hx
        exact (hbatch b hb).1)]
    rw [List.length_map, hsamplen]
    ring
  have hcat : torchCat (samples.map (fun b => b.2)) =
      some ((samples.map (fun b => b.2)).flatten) := by
    unfold torchCat
    rcases hh : (samples.map (fun b => b.2)).flatten.head? with _ | f
    · simp only [hh]
      have he : (samples.map (fun b => b.2)).flatten = [] :=
        List.head?_eq_none_iff.mp hh
      rw [he]
    · simp only [hh]
      have hfmem : f ∈ (samples.map (fun b => b.2)).flatten :=
        List.mem_of_mem_head? hh
      have hfsh : frShape f = (natm, ndesc) := hallsh f hfmem
      have hc : ((samples.map (fun b => b.2)).flatten.all
          (fun x => frShape x = frShape f)) = true := by
        rw [List.all_eq_true]
        intro x hx
        simp only [decide_eq_true_eq]
        rw [hallsh x hx, hfsh]
      rw [if_pos hc]
  refine ⟨(samples.map (fun b => b.1)).flatten,
    (samples.map (fun b => b.2)).flatten, ?_, heclen, hdmlen, hallsh⟩
  unfold sample_train_group
  simp only [hcat]

/-- Witness for C5: two one-atom one-channel systems with 2 and 3 frames and
batch size 1, drawn as a group batch of 2, give a combined batch of 2 frames
with unchanged per-frame shape, and the group-selection probability of the
(unique) atom-count group is 1. -/
theorem group_batch_draw_witness :
    let r1 : Reader ℚ Frame :=
      { natm := 1, ndesc := 1, nframes := 2, batch_size := 1,
        index_count_all := 0, data_ec := [1, 2], data_dm := [[[10]], [[20]]] }
    let r2 : Reader ℚ Frame :=
      { natm := 1, ndesc := 1, nframes := 3, batch_size := 1,
        index_count_all := 0, data_ec := [3, 4, 5],
        data_dm := [[[30]], [[40]], [[50]]] }
    let g : GroupReaderModel :=
      { readers := [r1, r2], nframes := [2, 3], nsystems := 2, ndesc := 1,
        sys_prob := [2/5, 3/5], batch_size := 1, group_batch := 2,
        sample_used := 0 }
    groupProb g 1 = 1 ∧
    (sample_train_group [r1, r2] [[0, 1], [0, 1, 2]]).elim 0
      (fun p => p.2.length) = 2 := by
  intro r1 r2 g
  have h := group_batch_draw g 1 1 1 1 2 [r1, r2] [[0, 1], [0, 1, 2]]
    (by decide) (by decide) (by decide)
  obtain ⟨hp, _, ec, dm, heq, hlec, hldm, hsh⟩ := h
  constructor
  · rw [hp]
    simp [groupDict]
    norm_num
  · rw [heq]
    simpa using hldm

/-- The claim that combining systems of mismatched channel width into one
group is a (construction-time) validation error is false: construction
succeeds and places both mismatched systems into the same atom-count group. -/
theorem group_mismatch_counterexample :
    (groupReaderInit 1 2 true
      [{ natm := 1, ndesc := 1, raw_ec := [1, 2],
         raw_dm := [[[1]], [[2]]], conv := [true, true] },
       { natm := 1, ndesc := 2, raw_ec := [3, 4],
         raw_dm := [[[1, 2]], [[3, 4]]], conv := [true, true] }]).isSome
      = true ∧
    (groupReaderInit 1 2 true
      [{ natm := 1, ndesc := 1, raw_ec := [1, 2],
         raw_dm := [[[1]], [[2]]], conv := [true, true] },
       { natm := 1, ndesc := 2, raw_ec := [3, 4],
         raw_dm := [[[1, 2]], [[3, 4]]], conv := [true, true] }]).elim 0
      (fun g => (groupDict g.readers 1).length) = 2 := by
  decide

/-- **C6** (amended) Group compatibility: atom-count mismatch can never occur
inside one group, because `group_dict` groups readers by their atom count; a
channel-width (`ndesc`) mismatch is accepted at construction and surfaces as
a fatal tensor-concatenation error (not recovered) on any group draw that
actually mixes two systems with different frame shapes. -/
theorem group_mismatch_amended (rs : List (Reader ℚ Frame)) (n0 : Nat)
    (r1 r2 : Reader ℚ Frame) (p1 p2 : List Nat) (natm d1 d2 bs : Nat)
    (h1bs : r1.batch_size = bs) (h1le : bs ≤ r1.nframes)
    (h1ec : r1.data_ec.length = r1.nframes)
    (h1dm : r1.data_dm.length = r1.nframes)
    (h1p : p1.Perm (List.range r1.nframes))
    (h1sh : ∀ f ∈ r1.data_dm, frShape f = (natm, d1))
    (h2bs : r2.batch_size = bs) (h2le : bs ≤ r2.nframes)
    (h2ec : r2.data_ec.length = r2.nframes)
    (h2dm : r2.data_dm.length = r2.nframes)
    (h2p : p2.Perm (List.range r2.nframes))
    (h2sh : ∀ f ∈ r2.data_dm, frShape f = (natm, d2))
    (hbs : 1 ≤ bs) (hne : d1 ≠ d2) :
    (∀ r ∈ groupDict rs n0, r.natm = n0) ∧
    sample_train_group [r1, r2] [p1, p2] = none := by
  constructor
  · intro r hr
    rw [groupDict, List.mem_filter] at hr
    simpa using hr.2
  · have hs1 := sample_train_batch_spec r1 p1 (by rw [h1bs]; exact h1le)
      h1ec h1dm h1p
    have hs2 := sample_train_batch_spec r2 p2 (by rw [h2bs]; exact h2le)
      h2ec h2dm h2p
    set b1 := (Reader.sample_train p1 r1).2.2 with hb1
    set b2 := (Reader.sample_train p2 r2).2.2 with hb2
    have hb1len : b1.length = bs := by rw [hs1.2.1, h1bs]
    have hb2len : b2.length = bs := by rw [hs2.2.1, h2bs]
    have hb1ne : b1 ≠ [] := by
      intro hc; rw [hc] at hb1len; simp at hb1len; omega
    have hb2ne : b2 ≠ [] := by
      intro hc; rw [hc] at hb2len; simp at hb2len; omega
    have hflat : ([b1, b2] : List (List Frame)).flatten = b1 ++ b2 := by
      simp
    have hcat : torchCat [b1, b2] = none := by
      unfold torchCat
      rw [hflat]
      have hhd : (b1 ++ b2).head? = some (b1.head hb1ne) := by
        rw [List.head?_append_of_ne_nil b1 hb1ne, List.head?_eq_head hb1ne]
      simp only [hhd]
      have hfall : ((b1 ++ b2).all
          (fun x => frShape x = frShape (b1.head hb1ne))) = false := by
        rw [Bool.eq_false_iff]
        intro hall
        rw [List.all_eq_true] at hall
        have hf2 := hall (b2.head hb2ne)
          (List.mem_append_right b1 (List.head_mem hb2ne))
        simp only [decide_eq_true_eq] at hf2
        have hsh1 : frShape (b1.head hb1ne) = (natm, d1) :=
          h1sh _ (hs1.2.2 _ (List.head_mem hb1ne))
        have hsh2 : frShape (b2.head hb2ne) = (natm, d2) :=
          h2sh _ (hs2.2.2 _ (List.head_mem hb2ne))
        rw [hsh1, hsh2] at hf2
        exact hne (Prod.mk.injEq _ _ _ _ ▸ hf2).2.symm
      rw [if_neg (by rw [hfall]; exact Bool.false_ne_true)]
    show (match torchCat
        (([(r1, p1), (r2, p2)].map
          (fun rp => (Reader.sample_train rp.2 rp.1).2)).map (fun b => b.2))
        with
      | none => none
      | some dm =>
        some ((([(r1, p1), (r2, p2)].map
          (fun rp => (Reader.sample_train rp.2 rp.1).2)).map
            (fun b => b.1)).flatten, dm)) = none
    have hmap : (([(r1, p1), (r2, p2)].map
        (fun rp => (Reader.sample_train rp.2 rp.1).2)).map (fun b => b.2))
        = [b1, b2] := by
      simp [hb1, hb2]
    rw [hmap, hcat]

/-- Witness for C6 (amended): a concrete group draw mixing a one-channel and a
two-channel system raises the concatenation error. -/
theorem group_mismatch_amended_witness :
    let r1 : Reader ℚ Frame :=
      { natm := 1, ndesc := 1, nframes := 2, batch_size := 1,
        index_count_all := 0, data_ec := [1, 2], data_dm := [[[10]], [[20]]] }
    let r2 : Reader ℚ Frame :=
      { natm := 1, ndesc := 2, nframes := 2, batch_size := 1,
        index_count_all := 0, data_ec := [3, 4],
        data_dm := [[[30, 31]], [[40, 41]]] }
    sample_train_group [r1, r2] [[0, 1], [0, 1]] = none := by
  intro r1 r2
  exact (group_mismatch_amended [] 0 r1 r2 [0, 1] [0, 1] 1 1 2 1
    (by decide) (by decide) (by decide) (by decide) (by decide) (by decide)
    (by decide) (by decide) (by decide) (by decide) (by decide) (by decide)
    (by decide) (by decide)).2

/- ### Statistics and ridge prefitting -/

/-- `x.mean()` for a flat list of rationals. -/
def meanL (xs : List ℚ) : ℚ := xs.sum / (xs.length : ℚ)

/-- Population variance (`ddof = 0`); `np.std` is its square root. -/
def varL (xs : List ℚ) : ℚ := meanL (xs.map (fun x => (x - meanL xs) ^ 2))

/-- Column `j` of a frames-by-channels matrix. -/
def colL (rows : List (List ℚ)) (j : Nat) : List ℚ :=
  rows.map (fun r => r.getD j 0)

/-- `np.split` of one row by the section widths along the channel axis. -/
def splitRow : List Nat → List ℚ → List (List ℚ)
  | [], _ => []
  | s :: rest, v => v.take s :: splitRow rest (v.drop s)

/-- The flattened entries of each channel section of a matrix (the
sub-matrices `np.split(m, cumsum(sections)[:-1], axis=-1)`, each flattened,
pooling rows and the section's channels). -/
def matShells : List Nat → List (List ℚ) → List (List ℚ)
  | [], _ => []
  | s :: rest, m =>
    (m.map (fun r => r.take s)).flatten :: matShells rest (m.map (fun r => r.drop s))

/-- `[v.repeat(s) for v, s in zip(vals, sections)]`, concatenated: broadcast
one scalar per section across the section's channel width. -/
def expandSections (vals : List ℚ) (secs : List Nat) : List ℚ :=
  ((vals.zip secs).map (fun p => List.replicate p.2 p.1)).flatten

/-- `GroupReader.compute_data_stat`: pool every system's descriptor rows
(flattened to frames-by-channels) and return per-channel mean and standard
deviation; with symmetry sections, one scalar per section broadcast over the
section, guarded by the `assert` that the sections sum to the channel count.
`sqrt` abstracts the floating-point square root inside `np.std`. -/
def compute_data_stat (sqrt : ℚ → ℚ) (symm_sections : Option (List Nat))
    (readers : List (Reader ℚ Frame)) : Option (List ℚ × List ℚ) :=
  let all_dm := readers.flatMap (fun r => r.data_dm.flatten)
  match symm_sections with
  | none =>
    let n := (all_dm.headD []).length
    some ((List.range n).map (fun j => meanL (colL all_dm j)),
          (List.range n).map (fun j => sqrt (varL (colL all_dm j))))
  | some secs =>
    if secs.sum = (all_dm.headD []).length then
      let shells := matShells secs all_dm
      some (expandSections (shells.map meanL) secs,
            expandSections (shells.map (fun d => sqrt (varL d))) secs)
    else none

/-- Elementwise subtraction (numpy broadcasting of a row operation). -/
def lsub (a b : List ℚ) : List ℚ := List.zipWith (fun x y => x - y) a b

/-- Elementwise division. -/
def ldiv (a b : List ℚ) : List ℚ := List.zipWith (fun x y => x / y) a b

/-- Elementwise addition. -/
def ladd (a b : List ℚ) : List ℚ := List.zipWith (fun x y => x + y) a b

/-- `((frame - shift) / scale).sum(0 over atoms)`: the atom-summed normalized
descriptor feature of one frame. -/
def normFrameSum (shift scale : List ℚ) (f : Frame) : List ℚ :=
  (f.map (fun row => ldiv (lsub row shift) scale)).foldr ladd
    (List.replicate shift.length 0)

/-- Dot product of two rows. -/
def dotL (a b : List ℚ) : ℚ := (List.zipWith (fun x y => x * y) a b).sum

/-- Matrix-vector product. -/
def matVec (A : List (List ℚ)) (v : List ℚ) : List ℚ :=
  A.map (fun row => dotL row v)

/-- Matrix-matrix product. -/
def matMul (A B : List (List ℚ)) : List (List ℚ) :=
  A.map (fun row => B.transpose.map (fun c => dotL row c))

/-- Elementwise matrix sum. -/
def madd (A B : List (List ℚ)) : List (List ℚ) := List.zipWith ladd A B

/-- Scalar multiple of a matrix. -/
def smulM (c : ℚ) (A : List (List ℚ)) : List (List ℚ) :=
  A.map (fun row => row.map (fun x => c * x))

/-- `I = np.identity(n); I[-1,-1] = 0`: the identity with its last diagonal
entry zeroed, so the bias feature is never penalized. -/
def eyeLast0 (n : Nat) : List (List ℚ) :=
  (List.range n).map (fun i =>
    (List.range n).map (fun j => if i = j ∧ i + 1 ≠ n then 1 else 0))

/-- The tail of `GroupReader.compute_prefitting` after the optional section
summing: append the atom-count bias column to form the design matrix, build
the ridge-regularized normal equations, solve them (`solve` abstracts
`np.linalg.solve`), and split the solution into weight (section-expanded when
sections are used) and bias. -/
def prefitSolve (solve : List (List ℚ) → List ℚ → List ℚ) (ridge_alpha : ℚ)
    (symm_sections : Option (List Nat)) (readers : List (Reader ℚ Frame))
    (all_sdm2 : List (List ℚ)) : Option (List ℚ × ℚ) :=
  let all_natm := readers.flatMap (fun r =>
    List.replicate r.data_dm.length ((r.natm : ℚ)))
  let X := List.zipWith (fun v n => v ++ [n]) all_sdm2 all_natm
  let y := readers.flatMap (fun r => r.data_ec)
  let ncol := (X.headD []).length
  let A := madd (matMul X.transpose X) (smulM ridge_alpha (eyeLast0 ncol))
  let coef := solve A (matVec X.transpose y)
  match symm_sections with
  | none => some (coef.dropLast, coef.getLastD 0)
  | some secs => some (expandSections coef.dropLast secs, coef.getLastD 0)

/-- `GroupReader.compute_prefitting`: build the design matrix from the
atom-summed normalized (and optionally section-summed) features plus the
atom-count bias column, and solve the ridge-regularized normal equations.
`solve` abstracts `np.linalg.solve`; `sqrt` is passed through to the
statistics routine for the default shift/scale. -/
def compute_prefitting (solve : List (List ℚ) → List ℚ → List ℚ)
    (sqrt : ℚ → ℚ) (shiftArg scaleArg : Option (List ℚ)) (ridge_alpha : ℚ)
    (symm_sections : Option (List Nat)) (readers : List (Reader ℚ Frame)) :
    Option (List ℚ × ℚ) :=
  let stat : Option (List ℚ × List ℚ) :=
    match shiftArg, scaleArg with
    | some sh, some sc => some (sh, sc)
    | _, _ =>
      match compute_data_stat sqrt symm_sections readers with
      | none => none
      | some (m, s) => some (shiftArg.getD m, scaleArg.getD s)
  match stat with
  | none => none
  | some (shift, scale) =>
    let all_sdm := readers.flatMap (fun r =>
      r.data_dm.map (fun f => normFrameSum shift scale f))
    match symm_sections with
    | none => prefitSolve solve ridge_alpha none readers all_sdm
    | some secs =>
      if secs.sum = (all_sdm.headD []).length then
        prefitSolve solve ridge_alpha (some secs) readers
          (all_sdm.map (fun v => (splitRow secs v).map List.sum))
      else none

/-- The design matrix as the specification words it: one row per frame,
holding the frame's (possibly section-summed) normalized atom-summed feature
followed by the bias feature equal to the frame's system atom count. -/
def designMatrixSpec (shift scale : List ℚ) (symm_sections : Option (List Nat))
    (readers : List (Reader ℚ Frame)) : List (List ℚ) :=
  readers.flatMap (fun r => r.data_dm.map (fun f =>
    (match symm_sections with
     | none => normFrameSum shift scale f
     | some secs => (splitRow secs (normFrameSum shift scale f)).map List.sum)
      ++ [(r.natm : ℚ)]))

theorem matShells_length (secs : List Nat) :
    ∀ m : List (List ℚ), (matShells secs m).length = secs.length := by
  induction secs with
  | nil => intro m; rfl
  | cons s rest ih =>
    intro m
    simp only [matShells, List.length_cons, ih]

theorem expandSections_length :
    ∀ (secs : List Nat) (vals : List ℚ), secs.length ≤ vals.length →
      (expandSections vals secs).length = secs.sum := by
  intro secs
  induction secs with
  | nil => intro vals _; simp [expandSections]
  | cons s rest ih =>
    intro vals h
    rcases vals with _ | ⟨v, vt⟩
    · simp at h
    · simp only [expandSections, List.zip_cons_cons, List.map_cons,
        List.flatten_cons, List.length_append, List.length_replicate,
        List.sum_cons]
      have := ih vt (by simpa using h)
      simp only [expandSections] at this
      rw [this]

theorem headD_mem {α : Type} {l : List α} (h : l ≠ []) (d : α) :
    l.headD d ∈ l := by
  rcases l with _ | ⟨x, t⟩
  · exact absurd rfl h
  · simp

/-- **C4** Normalization statistics: `compute_data_stat` pools all systems'
descriptor rows and returns per-channel mean and standard-deviation vectors
of length `ndesc`; with symmetry sections each section yields one scalar
(pooled over frames and the section's channels) broadcast across the
section's width, so all entries within a section are equal; sections that do
not sum to the channel count are a configuration error (`none`). -/
theorem normalization_statistics (sqrt : ℚ → ℚ)
    (readers : List (Reader ℚ Frame)) (D : Nat) (secs : List Nat)
    (hne : readers.flatMap (fun r => r.data_dm.flatten) ≠ [])
    (hrows : ∀ row ∈ readers.flatMap (fun r => r.data_dm.flatten),
      row.length = D) :
    (compute_data_stat sqrt none readers =
      some ((List.range D).map (fun j =>
              meanL (colL (readers.flatMap (fun r => r.data_dm.flatten)) j)),
            (List.range D).map (fun j =>
              sqrt (varL
                (colL (readers.flatMap (fun r => r.data_dm.flatten)) j))))) ∧
    (secs.sum = D →
      compute_data_stat sqrt (some secs) readers =
        some (expandSections
                ((matShells secs
                  (readers.flatMap (fun r => r.data_dm.flatten))).map meanL)
                secs,
              expandSections
                ((matShells secs
                  (readers.flatMap (fun r => r.data_dm.flatten))).map
                  (fun d => sqrt (varL d))) secs) ∧
      (expandSections
        ((matShells secs
          (readers.flatMap (fun r => r.data_dm.flatten))).map meanL)
        secs).length = D ∧
      (expandSections
        ((matShells secs
          (readers.flatMap (fun r => r.data_dm.flatten))).map
          (fun d => sqrt (varL d))) secs).length = D) ∧
    (secs.sum ≠ D → compute_data_stat sqrt (some secs) readers = none) := by
  have hhd : ((readers.flatMap (fun r => r.data_dm.flatten)).headD []).length
      = D := hrows _ (headD_mem hne [])
  refine ⟨?_, ?_, ?_⟩
  · simp only [compute_data_stat]
    rw [hhd]
  · intro hs
    refine ⟨?_, ?_, ?_⟩
    · simp only [compute_data_stat]
      rw [if_pos (by rw [hhd]; exact hs)]
    · rw [expandSections_length secs _ (by simp [matShells_length])]
      exact hs
    · rw [expandSections_length secs _ (by simp [matShells_length])]
      exact hs
  · intro hs
    simp only [compute_data_stat]
    rw [if_neg (by rw [hhd]; exact hs)]

/-- Witness for C4: one system, 2 frames, 3 channels, sections `[1, 2]`; the
pooled section means are `5/2` and `4`, broadcast as `[5/2, 4, 4]` — the two
entries of the second section are equal. -/
theorem normalization_statistics_witness :
    let r : Reader ℚ Frame :=
      { natm := 1, ndesc := 3, nframes := 2, batch_size := 1,
        index_count_all := 0, data_ec := [1, 2],
        data_dm := [[[1, 2, 3]], [[4, 5, 6]]] }
    (compute_data_stat id (some [1, 2]) [r]).elim []
      (fun p => p.1) = [5/2, 4, 4] := by
  intro r
  have h := (normalization_statistics id [r] 3 [1, 2]
    (by decide) (by decide)).2.1 (by decide)
  rw [h.1]
  simp [expandSections, matShells, meanL]
  norm_num

theorem ladd_length (a b : List ℚ) : (ladd a b).length = min a.length b.length := by
  simp [ladd]

theorem normFrameSum_length {shift scale : List ℚ}
    (hsc : scale.length = shift.length) :
    ∀ f : Frame, (∀ row ∈ f, row.length = shift.length) →
      (normFrameSum shift scale f).length = shift.length := by
  intro f
  induction f with
  | nil => intro _; simp [normFrameSum]
  | cons row t ih =>
    intro hr
    have hrow : row.length = shift.length := hr row (List.mem_cons_self row t)
    have ht := ih (fun x hx => hr x (List.mem_cons_of_mem row hx))
    show (ladd (ldiv (lsub row shift) scale)
      ((t.map (fun r => ldiv (lsub r shift) scale)).foldr ladd
        (List.replicate shift.length 0))).length = shift.length
    rw [ladd_length]
    have h1 : (ldiv (lsub row shift) scale).length = shift.length := by
      simp [ldiv, lsub, hrow, hsc]
    have h2 := ht
    simp only [normFrameSum] at h2
    rw [h1, h2]
    omega

theorem zipWith_bias_map (g : Frame → List ℚ) (c : ℚ) :
    ∀ l : List Frame,
      List.zipWith (fun v n => v ++ [n]) (l.map g)
        (List.replicate l.length c) = l.map (fun f => g f ++ [c]) := by
  intro l
  induction l with
  | nil => rfl
  | cons f t ih =>
    simp only [List.map_cons, List.length_cons, List.replicate_succ,
      List.zipWith_cons_cons, ih]

theorem designMatrix_fusion (g : Frame → List ℚ) :
    ∀ rs : List (Reader ℚ Frame),
      List.zipWith (fun v n => v ++ [n])
        (rs.flatMap (fun r => r.data_dm.map g))
        (rs.flatMap (fun r => List.replicate r.data_dm.length ((r.natm : ℚ))))
      = rs.flatMap (fun r => r.data_dm.map (fun f => g f ++ [(r.natm : ℚ)])) := by
  intro rs
  induction rs with
  | nil => rfl
  | cons r t ih =>
    simp only [List.flatMap_cons]
    rw [List.zipWith_append _ _ _ _ _ (by simp)]
    rw [zipWith_bias_map g (r.natm : ℚ) r.data_dm, ih]

/-- **C3** Ridge-regression prefitting: with shift and scale supplied,
`compute_prefitting` builds the design matrix whose row for each frame is the
atom-summed normalized descriptor feature (section-summed when symmetry
sections are supplied) followed by a bias column equal to the frame's system
atom count, solves `(XᵀX + αI')w = Xᵀy` where `I'` is the identity with its
last diagonal entry zeroed (so the bias is never penalized), and returns the
solution split into the weight vector without its last entry (expanded back
to full channel width when sections were used) and the bias, its last
entry. -/
theorem ridge_prefitting (solve : List (List ℚ) → List ℚ → List ℚ)
    (sqrt : ℚ → ℚ) (shift scale : List ℚ) (alph : ℚ)
    (symm_sections : Option (List Nat)) (readers : List (Reader ℚ Frame))
    (hsc : scale.length = shift.length)
    (hrows : ∀ r ∈ readers, ∀ f ∈ r.data_dm, ∀ row ∈ f,
      row.length = shift.length)
    (hne : ∃ r, r ∈ readers ∧ r.data_dm ≠ [])
    (hsec : ∀ secs, symm_sections = some secs → secs.sum = shift.length) :
    compute_prefitting solve sqrt (some shift) (some scale) alph
        symm_sections readers =
      (let X := designMatrixSpec shift scale symm_sections readers
       let y := readers.flatMap (fun r => r.data_ec)
       let coef := solve
         (madd (matMul X.transpose X)
           (smulM alph (eyeLast0 ((X.headD []).length))))
         (matVec X.transpose y)
       match symm_sections with
       | none => some (coef.dropLast, coef.getLastD 0)
       | some secs => some (expandSections coef.dropLast secs,
           coef.getLastD 0)) := by
  have hsdmmem : ∀ v ∈ readers.flatMap
      (fun r => r.data_dm.map (fun f => normFrameSum shift scale f)),
      v.length = shift.length := by
    intro v hv
    rw [List.mem_flatMap] at hv
    obtain ⟨r, hr, hv⟩ := hv
    rw [List.mem_map] at hv
    obtain ⟨f, hf, rfl⟩ := hv
    exact normFrameSum_length hsc f (hrows r hr f hf)
  have hsdmne : readers.flatMap
      (fun r => r.data_dm.map (fun f => normFrameSum shift scale f)) ≠ [] := by
    obtain ⟨r, hr, hd⟩ := hne
    rcases hfe : r.data_dm with _ | ⟨f0, ft⟩
    · exact absurd hfe hd
    · apply List.ne_nil_of_mem (a := normFrameSum shift scale f0)
      rw [List.mem_flatMap]
      exact ⟨r, hr, by rw [List.mem_map]; exact ⟨f0, by rw [hfe]; simp, rfl⟩⟩
  have hhd : ((readers.flatMap
      (fun r => r.data_dm.map (fun f => normFrameSum shift scale f))).headD
        []).length = shift.length :=
    hsdmmem _ (headD_mem hsdmne [])
  rcases symm_sections with _ | secs
  · have hX := designMatrix_fusion (fun f => normFrameSum shift scale f) readers
    simp only [compute_prefitting, prefitSolve, designMatrixSpec]
    rw [hX]
  · have hmap : (readers.flatMap
        (fun r => r.data_dm.map (fun f => normFrameSum shift scale f))).map
          (fun v => (splitRow secs v).map List.sum)
        = readers.flatMap (fun r => r.data_dm.map
            (fun f => (splitRow secs (normFrameSum shift scale f)).map
              List.sum)) := by
      rw [List.map_flatMap]
      congr 1
      funext r
      rw [List.map_map]
      rfl
    have hX := designMatrix_fusion
      (fun f => (splitRow secs (normFrameSum shift scale f)).map List.sum)
      readers
    simp only [compute_prefitting, prefitSolve, designMatrixSpec]
    rw [if_pos (by rw [hhd]; exact hsec secs rfl)]
    rw [hmap, hX]

/-- Witness for C3: one system (2 atoms, 1 channel, 1 frame), zero shift and
unit scale, no sections, and a stub solver returning `[5, 7]`; the returned
weight is the solution without its last entry and the bias is the last
entry. -/
theorem ridge_prefitting_witness :
    let r : Reader ℚ Frame :=
      { natm := 2, ndesc := 1, nframes := 1, batch_size := 1,
        index_count_all := 0, data_ec := [3], data_dm := [[[1], [2]]] }
    compute_prefitting (fun _ _ => [5, 7]) id (some [0]) (some [1]) 0
      none [r] = some ([5], 7) := by
  intro r
  have h := ridge_prefitting (fun _ _ => [5, 7]) id [0] [1] 0 none [r]
    (by decide) (by decide) ⟨r, by simp, by decide⟩
    (by intro s hs; exact Option.noConfusion hs)
  rw [h]
  rfl
